import Mathlib

/-!
Verification development for `tools/bench_analyze.py`.

The Python program parses benchmark log lines of the form
`BENCH version=<token> n_bats=<uint> iters=<uint> procs=<uint> threads=<uint> time_s=<float>`,
computes strong- and weak-scaling metrics relative to derived baselines, and
writes a CSV plus optional charts.

Shallow embedding notes:
* Lines are `List Char`; the regular expression `BENCH_RE` is embedded as a
  deterministic maximal-munch matcher (the pattern backtracks trivially:
  every greedy `\S+`/`\d+`/`[0-9.]+` run is followed by a character class
  disjoint from it, so maximal munch is exact).
* Python whitespace/digit classes are modelled at ASCII level.
* Python floats are modelled as exact rationals `ℚ`; the grammar only
  produces non-negative decimal literals, and every claim under study is
  about the exact arithmetic structure of the computation.
* `float(tok)` on a token drawn from `[0-9.]+` succeeds iff the token has at
  most one dot and at least one digit; otherwise it raises `ValueError`,
  which aborts the whole program.  `parse_lines` therefore returns
  `Except Unit _`, `.error` marking the uncaught exception.
* Python `dict` insertion/update is embedded as an association list that
  keeps first-insertion order of keys and overwrites values in place.
-/

/-- One parsed benchmark record (`BenchRow` in the source). -/
structure BenchRow where
  version : String
  n_bats : ℕ
  iters : ℕ
  procs : ℕ
  threads : ℕ
  time_s : ℚ
deriving DecidableEq, Repr

/-- Derived parallelism (`BenchRow.p` in the source):
threads for OpenMP, procs for MPI, 1 otherwise. -/
def BenchRow.p (r : BenchRow) : ℕ :=
  if r.version = "openmp" then r.threads
  else if r.version = "mpi" then r.procs
  else 1

/-! ## Parser -/

/-- ASCII model of Python's whitespace class `\s` (and of `str.strip`). -/
def charIsSpace (c : Char) : Bool :=
  c = ' ' || c = '\t' || c = '\n' || c = '\r' || c = '\x0b' || c = '\x0c'

/-- `str.strip()`: drop leading and trailing whitespace. -/
def pyStrip (l : List Char) : List Char :=
  ((l.dropWhile charIsSpace).reverse.dropWhile charIsSpace).reverse

/-- Match a literal character sequence at the head of the input, returning
the remainder on success. -/
def matchLit : List Char → List Char → Option (List Char)
  | [], s => some s
  | _ :: _, [] => none
  | c :: cs, x :: xs => if x = c then matchLit cs xs else none

/-- Greedy `X+` for a character class `p`: at least one character, maximal
munch; returns the matched run and the remainder. -/
def takeRun1 (p : Char → Bool) (s : List Char) : Option (List Char × List Char) :=
  match s.takeWhile p with
  | [] => none
  | c :: cs => some (c :: cs, s.dropWhile p)

/-- Greedy `\s+`. -/
def skipWs1 (s : List Char) : Option (List Char) :=
  (takeRun1 charIsSpace s).map Prod.snd

/-- Decimal digits to a natural number (Python `int` on a `\d+` group). -/
def digitsToNat (l : List Char) : ℕ :=
  l.foldl (fun a c => 10 * a + (c.toNat - '0'.toNat)) 0

/-- One `\s+<literal>=<run>` step of `BENCH_RE`: greedy whitespace, then the
literal field name, then a greedy nonempty run of the field's character
class, returning the run and the remainder. -/
def wsLitRun (lit : List Char) (p : Char → Bool) (s : List Char) :
    Option (List Char × List Char) :=
  match skipWs1 s with
  | none => none
  | some s1 =>
    match matchLit lit s1 with
    | none => none
    | some s2 => takeRun1 p s2

/-- The anchored regular expression `BENCH_RE` applied to a stripped line:
on success returns the six captured groups (the `time_s` group still as raw
characters, since converting it can fail). -/
def matchBench (s0 : List Char) : Option (String × ℕ × ℕ × ℕ × ℕ × List Char) :=
  match matchLit "BENCH".data s0 with
  | none => none
  | some s1 =>
    match wsLitRun "version=".data (fun c => !charIsSpace c) s1 with
    | none => none
    | some (ver, s2) =>
      match wsLitRun "n_bats=".data Char.isDigit s2 with
      | none => none
      | some (nb, s3) =>
        match wsLitRun "iters=".data Char.isDigit s3 with
        | none => none
        | some (it, s4) =>
          match wsLitRun "procs=".data Char.isDigit s4 with
          | none => none
          | some (pr, s5) =>
            match wsLitRun "threads=".data Char.isDigit s5 with
            | none => none
            | some (th, s6) =>
              match wsLitRun "time_s=".data (fun c => c.isDigit || c = '.') s6 with
              | none => none
              | some (ts, s7) =>
                if (s7.dropWhile charIsSpace).isEmpty then
                  some (String.mk ver, digitsToNat nb, digitsToNat it,
                        digitsToNat pr, digitsToNat th, ts)
                else none

/-- Python `float` on a token matched by `[0-9.]+`: defined iff the token
has at most one `'.'` and at least one digit; the value is exact. -/
def pyFloatOfToken (l : List Char) : Option ℚ :=
  if l.count '.' ≤ 1 && l.any Char.isDigit then
    let intPart := l.takeWhile (fun c => c ≠ '.')
    let fracPart := (l.dropWhile (fun c => c ≠ '.')).drop 1
    some ((digitsToNat intPart : ℚ) + (digitsToNat fracPart : ℚ) / 10 ^ fracPart.length)
  else
    none

/-- `parse_lines`: skip lines the regex rejects; a matching line whose
`time_s` token is not a valid float raises `ValueError` (modelled as
`.error ()`), aborting the run. -/
def parse_lines : List (List Char) → Except Unit (List BenchRow)
  | [] => .ok []
  | l :: ls =>
    match matchBench (pyStrip l) with
    | none => parse_lines ls
    | some (ver, nb, it, pr, th, ts) =>
      match pyFloatOfToken ts with
      | none => .error ()
      | some t =>
        match parse_lines ls with
        | .error e => .error e
        | .ok rs => .ok (⟨ver, nb, it, pr, th, t⟩ :: rs)

/-! ## Metrics -/

/-- One output row (the metric dict built by `_strong_metrics` /
`_weak_metrics`; the dict has a fixed shape, so it is a structure here). -/
structure Metric where
  mode : String
  version : String
  n_bats : ℕ
  iters : ℕ
  procs : ℕ
  threads : ℕ
  p : ℕ
  time_s : ℚ
  baseline_n_bats : ℕ
  T_base_s : ℚ
  speedup : ℚ
  efficiency : ℚ
deriving DecidableEq, Repr

/-- The natural key used by the final deduplication in `_weak_metrics`. -/
abbrev MKey := String × String × ℕ × ℕ × ℕ × ℕ

/-- Key extraction `(mode, version, n_bats, iters, procs, threads)`. -/
def keyOf (m : Metric) : MKey :=
  (m.mode, m.version, m.n_bats, m.iters, m.procs, m.threads)

/-! ### Sorting helpers (Python `sorted(set(...))`).
Only membership in the result matters for the properties below; the
comparators mirror Python's orderings. -/

/-- Insert into a list sorted by `le`. -/
def insertLe (le : α → α → Bool) (a : α) : List α → List α
  | [] => [a]
  | b :: l => if le a b then a :: b :: l else b :: insertLe le a l

/-- Insertion sort by `le`. -/
def sortByLe (le : α → α → Bool) (l : List α) : List α :=
  l.foldr (insertLe le) []

/-- Python `sorted({...})`: distinct elements, sorted. -/
def pySortedSet [DecidableEq α] (le : α → α → Bool) (l : List α) : List α :=
  sortByLe le l.dedup

/-- Lexicographic order on character lists (Python string comparison). -/
def lexLeChars : List Char → List Char → Bool
  | [], _ => true
  | _ :: _, [] => false
  | c :: cs, d :: ds => if c = d then lexLeChars cs ds else decide (c < d)

/-- Python `≤` on strings. -/
def strLe (a b : String) : Bool := lexLeChars a.data b.data

/-- Python `≤` on `(int, int)` pairs (lexicographic). -/
def pairLe (a b : ℕ × ℕ) : Bool :=
  decide (a.1 < b.1) || (decide (a.1 = b.1) && decide (a.2 ≤ b.2))

/-! ### Strong scaling -/

/-- The candidate list inside `find_baseline`: sequential records with the
given problem size and iteration count. -/
def seqCandsStrong (rows : List BenchRow) (n_bats iters : ℕ) : List BenchRow :=
  rows.filter fun r =>
    decide (r.version = "sequential") && decide (r.n_bats = n_bats) && decide (r.iters = iters)

/-- `find_baseline`: minimum sequential time for `(n_bats, iters)`, or a
`SystemExit` (modelled as `.error`) when no sequential record exists. -/
def find_baseline (rows : List BenchRow) (n_bats iters : ℕ) : Except String ℚ :=
  match seqCandsStrong rows n_bats iters with
  | [] => .error "Missing sequential baseline"
  | c :: cs => .ok (cs.foldl (fun a r => min a r.time_s) c.time_s)

/-- `sorted({(r.n_bats, r.iters) for r in rows})`. -/
def strongSizes (rows : List BenchRow) : List (ℕ × ℕ) :=
  pySortedSet pairLe (rows.map fun r => (r.n_bats, r.iters))

/-- The `baselines` dict of `_strong_metrics`: sizes whose `find_baseline`
succeeds, with the baseline time (`except SystemExit: continue`). -/
def strongBaselines (rows : List BenchRow) : List ((ℕ × ℕ) × ℚ) :=
  (strongSizes rows).filterMap fun sz =>
    match find_baseline rows sz.1 sz.2 with
    | .error _ => none
    | .ok t => some (sz, t)

/-- Dict lookup `baselines[key]` / `key in baselines`. -/
def strongLookup (rows : List BenchRow) (n_bats iters : ℕ) : Option ℚ :=
  ((strongBaselines rows).find? fun e => decide (e.1 = (n_bats, iters))).map Prod.snd

/-- The strong metric dict built for row `r` with baseline time `t1`. -/
def mkStrongMetric (r : BenchRow) (t1 : ℚ) : Metric :=
  let speedup := if 0 < r.time_s then t1 / r.time_s else 0
  let eff := if 0 < r.p then speedup / (r.p : ℚ) else 0
  { mode := "strong", version := r.version, n_bats := r.n_bats, iters := r.iters
    procs := r.procs, threads := r.threads, p := r.p, time_s := r.time_s
    baseline_n_bats := r.n_bats, T_base_s := t1, speedup := speedup, efficiency := eff }

/-- `_strong_metrics`: every row whose `(n_bats, iters)` has a resolved
baseline yields one strong metric. -/
def _strong_metrics (rows : List BenchRow) : List Metric :=
  rows.filterMap fun r => (strongLookup rows r.n_bats r.iters).map (mkStrongMetric r)

/-! ### Weak scaling -/

/-- Tier-1 candidates of `_weak_baseline`: sequential, `p = 1`, same iters. -/
def weakSeqCands (rows : List BenchRow) (iters : ℕ) : List BenchRow :=
  rows.filter fun r =>
    decide (r.iters = iters) && decide (r.version = "sequential") && decide (r.p = 1)

/-- Tier-2 candidates of `_weak_baseline`: same version, `p = 1`, same iters. -/
def weakSameCands (rows : List BenchRow) (iters : ℕ) (version : String) : List BenchRow :=
  rows.filter fun r =>
    decide (r.iters = iters) && decide (r.version = version) && decide (r.p = 1)

/-- Python `min(lst, key=lambda r: r.n_bats)` (first minimum on ties),
`none` on the empty list. -/
def pyMinByNbats : List BenchRow → Option BenchRow
  | [] => none
  | r :: rs => some (rs.foldl (fun acc x => if x.n_bats < acc.n_bats then x else acc) r)

/-- `_weak_baseline`: prefer the smallest-problem sequential `p=1` record;
fall back to the smallest-problem same-version `p=1` record. -/
def _weak_baseline (rows : List BenchRow) (iters : ℕ) (version : String) : Option BenchRow :=
  match pyMinByNbats (weakSeqCands rows iters) with
  | some b => some b
  | none => pyMinByNbats (weakSameCands rows iters version)

/-- The weak metric dict built for candidate row `r` against baseline `b`. -/
def mkWeakMetric (b r : BenchRow) : Metric :=
  let ws := if 0 < r.time_s then b.time_s / r.time_s else 0
  { mode := "weak", version := r.version, n_bats := r.n_bats, iters := r.iters
    procs := r.procs, threads := r.threads, p := r.p, time_s := r.time_s
    baseline_n_bats := b.n_bats, T_base_s := b.time_s, speedup := ws, efficiency := ws }

/-- The synthetic unit-speedup entry `_weak_metrics` appends for the
baseline row itself. -/
def syntheticOf (b : BenchRow) : Metric :=
  { mode := "weak", version := b.version, n_bats := b.n_bats, iters := b.iters
    procs := b.procs, threads := b.threads, p := 1, time_s := b.time_s
    baseline_n_bats := b.n_bats, T_base_s := b.time_s, speedup := 1, efficiency := 1 }

/-- `sorted({r.iters for r in rows})`. -/
def itersSorted (rows : List BenchRow) : List ℕ :=
  pySortedSet (fun a b => decide (a ≤ b)) (rows.map (·.iters))

/-- `sorted({r.version for r in rows})`. -/
def versionsSorted (rows : List BenchRow) : List String :=
  pySortedSet strLe (rows.map (·.version))

/-- The metrics emitted by one `(iters, version)` iteration of the weak
loop: nothing for `sequential` or when no baseline resolves; otherwise one
metric per candidate followed by the synthetic baseline entry. -/
def weakPairBlock (rows : List BenchRow) (iters : ℕ) (version : String) : List Metric :=
  if version = "sequential" then []
  else
    match _weak_baseline rows iters version with
    | none => []
    | some b =>
      ((rows.filter fun r => decide (r.iters = iters) && decide (r.version = version)).map
        (mkWeakMetric b)) ++ [syntheticOf b]

/-- The `out` list of `_weak_metrics` before deduplication. -/
def weakOut (rows : List BenchRow) : List Metric :=
  ((itersSorted rows).map fun it =>
    ((versionsSorted rows).map fun v => weakPairBlock rows it v).flatten).flatten

/-- One `uniq[key] = m` step on the association list modelling the dict. -/
def upsertM (acc : List (MKey × Metric)) (m : Metric) : List (MKey × Metric) :=
  if acc.any fun e => decide (e.1 = keyOf m) then
    acc.map fun e => if e.1 = keyOf m then (e.1, m) else e
  else
    acc ++ [(keyOf m, m)]

/-- `list(uniq.values())` after inserting every metric in order. -/
def dedupByKey (ms : List Metric) : List Metric :=
  (ms.foldl upsertM []).map Prod.snd

/-- `_weak_metrics`: the weak loop output, deduplicated by natural key. -/
def _weak_metrics (rows : List BenchRow) : List Metric :=
  dedupByKey (weakOut rows)

/-- `compute_metrics`: strong table then weak table. -/
def compute_metrics (rows : List BenchRow) : List Metric :=
  _strong_metrics rows ++ _weak_metrics rows

/-! ## Reporter / `main` skeleton -/

/-- Observable output actions of `main` (directory creation, CSV write,
chart file writes, the advisory print when plotting is unavailable). -/
inductive OutEvent where
  | mkdirOut
  | writeCsv (metrics : List Metric)
  | writePng (name : String)
  | printAdvisory
deriving DecidableEq, Repr

/-- The `groups` dict of `try_plot`: metrics grouped by
`(mode, version, n_bats, iters)` in first-appearance order. -/
def plotGroups (metrics : List Metric) : List ((String × String × ℕ × ℕ) × List Metric) :=
  metrics.foldl
    (fun acc m =>
      let k := (m.mode, m.version, m.n_bats, m.iters)
      if acc.any fun e => decide (e.1 = k) then
        acc.map fun e => if e.1 = k then (e.1, e.2 ++ [m]) else e
      else
        acc ++ [(k, [m])])
    []

/-- Chart file name pattern of `try_plot`. -/
def pngName (version mode kind : String) (n_bats iters : ℕ) : String :=
  version ++ "_" ++ mode ++ "_" ++ kind ++ "_nb" ++ toString n_bats ++
    "_it" ++ toString iters ++ ".png"

/-- `try_plot` as its sequence of output events. -/
def tryPlotEvents (plotAvailable : Bool) (metrics : List Metric) : List OutEvent :=
  if !plotAvailable then [.printAdvisory]
  else
    (plotGroups metrics).flatMap fun g =>
      let mode := g.1.1
      let version := g.1.2.1
      let nb := g.1.2.2.1
      let it := g.1.2.2.2
      if version = "sequential" then []
      else if ((g.2.map (·.p)).dedup).length < 1 then []
      else
        [.writePng (pngName version mode "time" nb it),
         .writePng (pngName version mode "speedup" nb it),
         .writePng (pngName version mode "efficiency" nb it)]

/-- The effect skeleton of `main`: create the output directory, parse,
abort when no records were parsed (or when parsing raised), otherwise
write the CSV and then the charts. -/
def mainRun (plotAvailable : Bool) (lines : List (List Char)) :
    List OutEvent × Except String Unit :=
  match parse_lines lines with
  | .error _ => ([.mkdirOut], .error "ValueError")
  | .ok rows =>
    if rows.isEmpty then ([.mkdirOut], .error "No BENCH lines found in input.")
    else
      let metrics := compute_metrics rows
      ([OutEvent.mkdirOut, OutEvent.writeCsv metrics] ++ tryPlotEvents plotAvailable metrics,
       .ok ())

/-! ## General lemmas about the embedding -/

lemma mem_insertLe (le : α → α → Bool) (a x : α) (l : List α) :
    x ∈ insertLe le a l ↔ x = a ∨ x ∈ l := by
  induction l with
  | nil => simp [insertLe]
  | cons b l ih =>
    simp only [insertLe]
    by_cases h : le a b = true
    · simp [h, List.mem_cons]
    · simp only [if_neg h, List.mem_cons, ih]
      tauto

lemma mem_sortByLe (le : α → α → Bool) (x : α) (l : List α) :
    x ∈ sortByLe le l ↔ x ∈ l := by
  induction l with
  | nil => simp [sortByLe]
  | cons b l ih =>
    simp only [sortByLe, List.foldr_cons, List.mem_cons]
    rw [mem_insertLe]
    simp only [sortByLe] at ih
    rw [ih]

lemma mem_pySortedSet [DecidableEq α] (le : α → α → Bool) (x : α) (l : List α) :
    x ∈ pySortedSet le l ↔ x ∈ l := by
  rw [pySortedSet, mem_sortByLe, List.mem_dedup]

lemma foldlMinTime_le_init (cs : List BenchRow) (t : ℚ) :
    cs.foldl (fun a r => min a r.time_s) t ≤ t := by
  induction cs generalizing t with
  | nil => simp
  | cons c cs ih =>
    simp only [List.foldl_cons]
    exact le_trans (ih _) (min_le_left _ _)

lemma foldlMinTime_le_mem (cs : List BenchRow) (t : ℚ) :
    ∀ r ∈ cs, cs.foldl (fun a r => min a r.time_s) t ≤ r.time_s := by
  induction cs generalizing t with
  | nil => simp
  | cons c cs ih =>
    intro r hr
    simp only [List.foldl_cons]
    rcases List.mem_cons.mp hr with h | h
    · subst h
      exact le_trans (foldlMinTime_le_init _ _) (min_le_right _ _)
    · exact ih _ r h

lemma foldlMinTime_mem (cs : List BenchRow) (t : ℚ) :
    cs.foldl (fun a r => min a r.time_s) t = t ∨
      cs.foldl (fun a r => min a r.time_s) t ∈ cs.map (·.time_s) := by
  induction cs generalizing t with
  | nil => left; rfl
  | cons c cs ih =>
    simp only [List.foldl_cons, List.map_cons]
    rcases ih (min t c.time_s) with h | h
    · rw [h]
      rcases le_total t c.time_s with hle | hle
      · left
        exact min_eq_left hle
      · rw [min_eq_right hle]
        right
        exact List.mem_cons_self _ _
    · right
      exact List.mem_cons_of_mem _ h

lemma foldlNb_mem (rs : List BenchRow) (a : BenchRow) :
    rs.foldl (fun acc x => if x.n_bats < acc.n_bats then x else acc) a = a ∨
      rs.foldl (fun acc x => if x.n_bats < acc.n_bats then x else acc) a ∈ rs := by
  induction rs generalizing a with
  | nil => left; rfl
  | cons r rs ih =>
    simp only [List.foldl_cons]
    rcases ih (if r.n_bats < a.n_bats then r else a) with h | h
    · rw [h]
      by_cases hlt : r.n_bats < a.n_bats
      · rw [if_pos hlt]
        right
        exact List.mem_cons_self _ _
      · rw [if_neg hlt]
        left
        rfl
    · right
      exact List.mem_cons_of_mem _ h

lemma foldlNb_le (rs : List BenchRow) (a : BenchRow) :
    (rs.foldl (fun acc x => if x.n_bats < acc.n_bats then x else acc) a).n_bats ≤ a.n_bats ∧
      ∀ x ∈ rs,
        (rs.foldl (fun acc x => if x.n_bats < acc.n_bats then x else acc) a).n_bats ≤ x.n_bats := by
  induction rs generalizing a with
  | nil => exact ⟨le_refl _, by simp⟩
  | cons r rs ih =>
    simp only [List.foldl_cons]
    obtain ⟨h1, h2⟩ := ih (if r.n_bats < a.n_bats then r else a)
    have hstep : (if r.n_bats < a.n_bats then r else a).n_bats ≤ a.n_bats ∧
        (if r.n_bats < a.n_bats then r else a).n_bats ≤ r.n_bats := by
      by_cases hlt : r.n_bats < a.n_bats
      · rw [if_pos hlt]
        exact ⟨le_of_lt hlt, le_refl _⟩
      · rw [if_neg hlt]
        exact ⟨le_refl _, le_of_not_lt hlt⟩
    refine ⟨le_trans h1 hstep.1, ?_⟩
    intro x hx
    rcases List.mem_cons.mp hx with h | h
    · subst h
      exact le_trans h1 hstep.2
    · exact h2 x h

lemma pyMinByNbats_mem {l : List BenchRow} {b : BenchRow}
    (h : pyMinByNbats l = some b) : b ∈ l := by
  cases l with
  | nil => simp [pyMinByNbats] at h
  | cons r rs =>
    simp only [pyMinByNbats, Option.some.injEq] at h
    rcases foldlNb_mem rs r with h2 | h2 <;> rw [h] at h2
    · rw [h2]
      exact List.mem_cons_self _ _
    · exact List.mem_cons_of_mem _ h2

lemma pyMinByNbats_le {l : List BenchRow} {b : BenchRow}
    (h : pyMinByNbats l = some b) : ∀ x ∈ l, b.n_bats ≤ x.n_bats := by
  cases l with
  | nil => simp [pyMinByNbats] at h
  | cons r rs =>
    simp only [pyMinByNbats, Option.some.injEq] at h
    intro x hx
    obtain ⟨h1, h2⟩ := foldlNb_le rs r
    rw [h] at h1 h2
    rcases List.mem_cons.mp hx with hh | hh
    · subst hh
      exact h1
    · exact h2 x hh

lemma pyMinByNbats_eq_none {l : List BenchRow} :
    pyMinByNbats l = none ↔ l = [] := by
  cases l <;> simp [pyMinByNbats]

lemma mem_seqCandsStrong {rows : List BenchRow} {n it : ℕ} {r : BenchRow} :
    r ∈ seqCandsStrong rows n it ↔
      r ∈ rows ∧ r.version = "sequential" ∧ r.n_bats = n ∧ r.iters = it := by
  simp [seqCandsStrong, List.mem_filter, and_assoc]

lemma mem_weakSeqCands {rows : List BenchRow} {it : ℕ} {r : BenchRow} :
    r ∈ weakSeqCands rows it ↔
      r ∈ rows ∧ r.iters = it ∧ r.version = "sequential" ∧ r.p = 1 := by
  simp [weakSeqCands, List.mem_filter, and_assoc]

lemma mem_weakSameCands {rows : List BenchRow} {it : ℕ} {v : String} {r : BenchRow} :
    r ∈ weakSameCands rows it v ↔
      r ∈ rows ∧ r.iters = it ∧ r.version = v ∧ r.p = 1 := by
  simp [weakSameCands, List.mem_filter, and_assoc]

lemma find_baseline_ok_of_ne_nil {rows : List BenchRow} {n it : ℕ}
    (h : seqCandsStrong rows n it ≠ []) :
    ∃ t, find_baseline rows n it = .ok t := by
  rw [find_baseline]
  cases hc : seqCandsStrong rows n it with
  | nil => exact absurd hc h
  | cons c cs => exact ⟨_, rfl⟩

lemma find_baseline_error_of_nil {rows : List BenchRow} {n it : ℕ}
    (h : seqCandsStrong rows n it = []) :
    find_baseline rows n it = .error "Missing sequential baseline" := by
  rw [find_baseline, h]

lemma find_baseline_ok_min {rows : List BenchRow} {n it : ℕ} {t : ℚ}
    (h : find_baseline rows n it = .ok t) :
    t ∈ (seqCandsStrong rows n it).map (·.time_s) ∧
      ∀ u ∈ (seqCandsStrong rows n it).map (·.time_s), t ≤ u := by
  rw [find_baseline] at h
  cases hc : seqCandsStrong rows n it with
  | nil => rw [hc] at h; exact absurd h (by simp)
  | cons c cs =>
    rw [hc] at h
    have ht : t = cs.foldl (fun a r => min a r.time_s) c.time_s := by
      cases h
      rfl
    subst ht
    constructor
    · rcases foldlMinTime_mem cs c.time_s with h2 | h2
      · rw [h2]
        simp
      · simp only [List.map_cons, List.mem_cons]
        right
        exact h2
    · intro u hu
      simp only [List.map_cons, List.mem_cons] at hu
      rcases hu with hu | hu
      · rw [hu]
        exact foldlMinTime_le_init _ _
      · obtain ⟨r, hr, hru⟩ := List.mem_map.mp hu
        rw [← hru]
        exact foldlMinTime_le_mem _ _ r hr

lemma mem_strongSizes {rows : List BenchRow} {r : BenchRow} (h : r ∈ rows) :
    (r.n_bats, r.iters) ∈ strongSizes rows := by
  rw [strongSizes, mem_pySortedSet]
  exact List.mem_map.mpr ⟨r, h, rfl⟩

lemma strongLookup_some_fb {rows : List BenchRow} {n it : ℕ} {t : ℚ}
    (h : strongLookup rows n it = some t) :
    find_baseline rows n it = .ok t := by
  rw [strongLookup] at h
  obtain ⟨e, he, het⟩ := Option.map_eq_some'.mp h
  have hmem := List.mem_of_find?_eq_some he
  have hkey := List.find?_some he
  simp only [decide_eq_true_eq] at hkey
  rw [strongBaselines] at hmem
  obtain ⟨sz, hszmem, hsz⟩ := List.mem_filterMap.mp hmem
  cases hfb : find_baseline rows sz.1 sz.2 with
  | error s => rw [hfb] at hsz; exact absurd hsz (by simp)
  | ok u =>
    rw [hfb] at hsz
    simp only [Option.some.injEq] at hsz
    have h1 : sz = (n, it) := by rw [← hkey, ← hsz]
    have h2 : u = t := by rw [← het, ← hsz]
    rw [h1] at hfb
    have hfin : find_baseline rows n it = Except.ok u := hfb
    rw [hfin, h2]

lemma strongLookup_of_fb {rows : List BenchRow} {n it : ℕ} {t : ℚ}
    (hsz : (n, it) ∈ strongSizes rows)
    (hfb : find_baseline rows n it = .ok t) :
    strongLookup rows n it = some t := by
  rw [strongLookup]
  have hne : ((strongBaselines rows).find? fun e => decide (e.1 = (n, it))) ≠ none := by
    intro hnone
    rw [List.find?_eq_none] at hnone
    have hmem : ((n, it), t) ∈ strongBaselines rows := by
      rw [strongBaselines]
      exact List.mem_filterMap.mpr ⟨(n, it), hsz, by rw [hfb]⟩
    exact hnone _ hmem (by simp)
  cases hfind : (strongBaselines rows).find? fun e => decide (e.1 = (n, it)) with
  | none => exact absurd hfind hne
  | some e =>
    have hmem := List.mem_of_find?_eq_some hfind
    have hkey := List.find?_some hfind
    simp only [decide_eq_true_eq] at hkey
    rw [strongBaselines] at hmem
    obtain ⟨sz, hszmem, hsz2⟩ := List.mem_filterMap.mp hmem
    cases hfb2 : find_baseline rows sz.1 sz.2 with
    | error s => rw [hfb2] at hsz2; exact absurd hsz2 (by simp)
    | ok u =>
      rw [hfb2] at hsz2
      simp only [Option.some.injEq] at hsz2
      have h1 : sz = (n, it) := by rw [← hkey, ← hsz2]
      have h2 : e.2 = u := by rw [← hsz2]
      rw [h1] at hfb2
      have hfin : find_baseline rows n it = Except.ok u := hfb2
      rw [hfb] at hfin
      have hut : u = t := by
        cases hfin
        rfl
      simp only [Option.map_some']
      rw [h2, hut]

lemma mem_strong_inv {rows : List BenchRow} {m : Metric}
    (h : m ∈ _strong_metrics rows) :
    ∃ r t1, r ∈ rows ∧ strongLookup rows r.n_bats r.iters = some t1 ∧
      m = mkStrongMetric r t1 := by
  rw [_strong_metrics] at h
  obtain ⟨r, hr, hm⟩ := List.mem_filterMap.mp h
  cases hl : strongLookup rows r.n_bats r.iters with
  | none => rw [hl] at hm; exact absurd hm (by simp)
  | some t1 =>
    rw [hl] at hm
    simp only [Option.map_some', Option.some.injEq] at hm
    exact ⟨r, t1, hr, hl, hm.symm⟩

lemma mem_strong_intro {rows : List BenchRow} {r : BenchRow} {t1 : ℚ}
    (hr : r ∈ rows) (hl : strongLookup rows r.n_bats r.iters = some t1) :
    mkStrongMetric r t1 ∈ _strong_metrics rows := by
  rw [_strong_metrics]
  refine List.mem_filterMap.mpr ⟨r, hr, ?_⟩
  rw [hl]
  rfl

/-! ### The dict model used by the weak-metrics deduplication -/

/-- Invariant of the association list modelling the Python dict: keys are
distinct and each stored key is the key of its stored metric. -/
def accInvariant (acc : List (MKey × Metric)) : Prop :=
  (acc.map Prod.fst).Nodup ∧ ∀ e ∈ acc, e.1 = keyOf e.2

/-- The sublist of metrics carrying a given natural key. -/
def keyFilter (K : MKey) (l : List Metric) : List Metric :=
  l.filter fun m => decide (keyOf m = K)

lemma getLast?_cons_of_ne_nil {l : List α} (h : l ≠ []) (a : α) :
    (a :: l).getLast? = l.getLast? := by
  cases l with
  | nil => exact absurd rfl h
  | cons b l => exact List.getLast?_cons_cons

lemma upsertM_invariant {acc : List (MKey × Metric)} {m : Metric}
    (h : accInvariant acc) : accInvariant (upsertM acc m) := by
  obtain ⟨h1, h2⟩ := h
  rw [upsertM]
  by_cases hany : (acc.any fun e => decide (e.1 = keyOf m)) = true
  · rw [if_pos hany]
    constructor
    · have hmap : ((acc.map fun e => if e.1 = keyOf m then (e.1, m) else e).map Prod.fst) =
          acc.map Prod.fst := by
        rw [List.map_map]
        apply List.map_congr_left
        intro e _
        by_cases he : e.1 = keyOf m
        · simp [he]
        · simp [he]
      rw [hmap]
      exact h1
    · intro e he
      obtain ⟨x, hx, hxe⟩ := List.mem_map.mp he
      by_cases hxm : x.1 = keyOf m
      · rw [if_pos hxm] at hxe
        rw [← hxe]
        exact hxm
      · rw [if_neg hxm] at hxe
        rw [← hxe]
        exact h2 x hx
  · rw [if_neg hany]
    simp only [List.any_eq_true, decide_eq_true_eq, not_exists, not_and] at hany
    constructor
    · rw [List.map_append]
      rw [List.nodup_append]
      refine ⟨h1, List.nodup_singleton _, ?_⟩
      intro k hk hk2
      simp only [List.map_cons, List.map_nil, List.mem_singleton] at hk2
      obtain ⟨e, he, hek⟩ := List.mem_map.mp hk
      exact hany e he (hek.trans hk2)
    · intro e he
      rcases List.mem_append.mp he with hh | hh
      · exact h2 e hh
      · simp only [List.mem_singleton] at hh
        rw [hh]
  
lemma foldl_upsertM_invariant {acc : List (MKey × Metric)} (ms : List Metric)
    (h : accInvariant acc) : accInvariant (ms.foldl upsertM acc) := by
  induction ms generalizing acc with
  | nil => exact h
  | cons m tl ih => exact ih (upsertM_invariant h)

lemma keyFilter_nil_of_no_key {K : MKey} {l : List Metric}
    (h : ∀ m ∈ l, keyOf m ≠ K) : keyFilter K l = [] := by
  rw [keyFilter, List.filter_eq_nil_iff]
  intro a ha
  simp only [decide_eq_true_eq]
  exact h a ha

lemma keyFilter_cons (K : MKey) (m : Metric) (l : List Metric) :
    keyFilter K (m :: l) =
      if keyOf m = K then m :: keyFilter K l else keyFilter K l := by
  rw [keyFilter, List.filter_cons]
  by_cases h : keyOf m = K
  · simp [h, keyFilter]
  · simp [h, keyFilter]

lemma keyFilter_append (K : MKey) (l₁ l₂ : List Metric) :
    keyFilter K (l₁ ++ l₂) = keyFilter K l₁ ++ keyFilter K l₂ :=
  List.filter_append _ _

lemma keyFilter_nil (K : MKey) : keyFilter K [] = [] := rfl

lemma keyFilter_replace (m : Metric) (K : MKey) :
    ∀ (acc : List (MKey × Metric)), (acc.map Prod.fst).Nodup →
      (∀ e ∈ acc, e.1 = keyOf e.2) →
      keyFilter K ((acc.map fun e => if e.1 = keyOf m then (e.1, m) else e).map Prod.snd) =
        if (∃ e ∈ acc, e.1 = keyOf m) ∧ keyOf m = K then [m]
        else keyFilter K (acc.map Prod.snd) := by
  intro acc
  induction acc with
  | nil =>
    intro _ _
    simp [keyFilter]
  | cons e rest ih =>
    intro hnodup hfst
    have hfe : e.1 = keyOf e.2 := hfst e (List.mem_cons_self _ _)
    have hnod1 : e.1 ∉ rest.map Prod.fst := (List.nodup_cons.mp hnodup).1
    have hnod2 : (rest.map Prod.fst).Nodup := (List.nodup_cons.mp hnodup).2
    have hfst2 : ∀ x ∈ rest, x.1 = keyOf x.2 := fun x hx => hfst x (List.mem_cons_of_mem _ hx)
    simp only [List.map_cons]
    by_cases he1 : e.1 = keyOf m
    · rw [if_pos he1]
      have hrest : ∀ x ∈ rest, ¬ x.1 = keyOf m := by
        intro x hx hxm
        exact hnod1 (List.mem_map.mpr ⟨x, hx, hxm.trans he1.symm⟩)
      have hmapid : (rest.map fun x => if x.1 = keyOf m then (x.1, m) else x) = rest := by
        have h0 : (rest.map fun x => if x.1 = keyOf m then (x.1, m) else x) = rest.map id := by
          apply List.map_congr_left
          intro x hx
          rw [if_neg (hrest x hx)]
          rfl
        rw [h0, List.map_id]
      rw [hmapid]
      show keyFilter K (m :: rest.map Prod.snd) = _
      rw [keyFilter_cons]
      by_cases hk : keyOf m = K
      · rw [if_pos hk]
        have hnil : keyFilter K (rest.map Prod.snd) = [] := by
          apply keyFilter_nil_of_no_key
          intro a ha
          obtain ⟨x, hx, hxa⟩ := List.mem_map.mp ha
          rw [← hxa, ← hfst2 x hx]
          intro hxK
          exact hrest x hx (by rw [hxK, hk])
        rw [hnil]
        rw [if_pos ⟨⟨e, List.mem_cons_self _ _, he1⟩, hk⟩]
      · rw [if_neg hk]
        rw [if_neg fun hc => hk hc.2]
        show _ = keyFilter K (e.2 :: rest.map Prod.snd)
        rw [keyFilter_cons]
        have hne : ¬ keyOf e.2 = K := by
          rw [← hfe, he1]
          exact hk
        rw [if_neg hne]
    · rw [if_neg he1]
      show keyFilter K (e.2 :: (rest.map fun x =>
        if x.1 = keyOf m then (x.1, m) else x).map Prod.snd) = _
      rw [keyFilter_cons]
      have ihr := ih hnod2 hfst2
      have hcond : ((∃ x ∈ e :: rest, x.1 = keyOf m) ∧ keyOf m = K) ↔
          ((∃ x ∈ rest, x.1 = keyOf m) ∧ keyOf m = K) := by
        constructor
        · rintro ⟨⟨x, hx, hxm⟩, hk⟩
          rcases List.mem_cons.mp hx with hh | hh
          · exact absurd (hh ▸ hxm) he1
          · exact ⟨⟨x, hh, hxm⟩, hk⟩
        · rintro ⟨⟨x, hx, hxm⟩, hk⟩
          exact ⟨⟨x, List.mem_cons_of_mem _ hx, hxm⟩, hk⟩
      by_cases hC : (∃ x ∈ rest, x.1 = keyOf m) ∧ keyOf m = K
      · rw [ihr, if_pos hC]
        have hne : ¬ keyOf e.2 = K := by
          rw [← hfe]
          intro hh
          exact he1 (by rw [hh, hC.2])
        rw [if_neg hne]
        rw [if_pos (hcond.mpr hC)]
      · rw [ihr, if_neg hC]
        rw [if_neg fun hc => hC (hcond.mp hc)]
        show _ = keyFilter K (e.2 :: rest.map Prod.snd)
        rw [keyFilter_cons]

lemma keyFilter_upsertM {acc : List (MKey × Metric)} {m : Metric} {K : MKey}
    (inv : accInvariant acc) :
    keyFilter K ((upsertM acc m).map Prod.snd) =
      if keyOf m = K then [m] else keyFilter K (acc.map Prod.snd) := by
  rw [upsertM]
  by_cases hany : (acc.any fun e => decide (e.1 = keyOf m)) = true
  · rw [if_pos hany]
    have hex : ∃ e ∈ acc, e.1 = keyOf m := by
      simpa using hany
    rw [keyFilter_replace m K acc inv.1 inv.2]
    by_cases hk : keyOf m = K
    · rw [if_pos ⟨hex, hk⟩, if_pos hk]
    · rw [if_neg fun hc => hk hc.2, if_neg hk]
  · rw [if_neg hany]
    simp only [List.any_eq_true, decide_eq_true_eq, not_exists, not_and] at hany
    rw [List.map_append]
    have hsingle : (([((keyOf m, m) : MKey × Metric)]).map Prod.snd) = [m] := rfl
    rw [hsingle, keyFilter_append, keyFilter_cons, keyFilter_nil]
    by_cases hk : keyOf m = K
    · rw [if_pos hk]
      have hnil : keyFilter K (acc.map Prod.snd) = [] := by
        apply keyFilter_nil_of_no_key
        intro a ha
        obtain ⟨e, he, hea⟩ := List.mem_map.mp ha
        rw [← hea, ← inv.2 e he]
        intro h
        exact hany e he (by rw [h, hk])
      rw [hnil, if_pos hk]
      rfl
    · rw [if_neg hk, if_neg hk]
      simp

lemma foldl_upsertM_keyFilter (K : MKey) :
    ∀ (ms : List Metric) (acc : List (MKey × Metric)), accInvariant acc →
      keyFilter K ((ms.foldl upsertM acc).map Prod.snd) =
        match (keyFilter K ms).getLast? with
        | some x => [x]
        | none => keyFilter K (acc.map Prod.snd) := by
  intro ms
  induction ms with
  | nil =>
    intro acc _
    rfl
  | cons m tl ih =>
    intro acc hinv
    simp only [List.foldl_cons]
    rw [ih (upsertM acc m) (upsertM_invariant hinv)]
    rw [keyFilter_cons]
    by_cases hk : keyOf m = K
    · rw [if_pos hk]
      cases hlast : (keyFilter K tl).getLast? with
      | some x =>
        have hne : keyFilter K tl ≠ [] := by
          intro h0
          rw [h0] at hlast
          exact Option.noConfusion hlast
        rw [getLast?_cons_of_ne_nil hne, hlast]
      | none =>
        have hnil : keyFilter K tl = [] := List.getLast?_eq_none_iff.mp hlast
        show keyFilter K ((upsertM acc m).map Prod.snd) = _
        rw [keyFilter_upsertM hinv, if_pos hk, hnil]
        rfl
    · rw [if_neg hk]
      cases hlast : (keyFilter K tl).getLast? with
      | some x => rfl
      | none =>
        show keyFilter K ((upsertM acc m).map Prod.snd) = keyFilter K (acc.map Prod.snd)
        rw [keyFilter_upsertM hinv, if_neg hk]

lemma dedupByKey_keyFilter (ms : List Metric) (K : MKey) :
    keyFilter K (dedupByKey ms) = ((keyFilter K ms).getLast?).toList := by
  rw [dedupByKey]
  rw [foldl_upsertM_keyFilter K ms [] ⟨List.nodup_nil, by simp⟩]
  cases (keyFilter K ms).getLast? <;> rfl

lemma mem_foldl_upsertM :
    ∀ (ms : List Metric) (acc : List (MKey × Metric)) (x : Metric),
      x ∈ (ms.foldl upsertM acc).map Prod.snd →
      x ∈ acc.map Prod.snd ∨ x ∈ ms := by
  intro ms
  induction ms with
  | nil =>
    intro acc x h
    exact Or.inl h
  | cons m tl ih =>
    intro acc x h
    simp only [List.foldl_cons] at h
    rcases ih (upsertM acc m) x h with hh | hh
    · rw [upsertM] at hh
      by_cases hany : (acc.any fun e => decide (e.1 = keyOf m)) = true
      · rw [if_pos hany] at hh
        obtain ⟨e, he, hex⟩ := List.mem_map.mp hh
        obtain ⟨y, hy, hye⟩ := List.mem_map.mp he
        by_cases hym : y.1 = keyOf m
        · rw [if_pos hym] at hye
          right
          rw [← hex, ← hye]
          exact List.mem_cons_self _ _
        · rw [if_neg hym] at hye
          left
          rw [← hex, ← hye]
          exact List.mem_map.mpr ⟨y, hy, rfl⟩
      · rw [if_neg hany] at hh
        rw [List.map_append] at hh
        rcases List.mem_append.mp hh with h1 | h1
        · exact Or.inl h1
        · simp only [List.map_cons, List.map_nil, List.mem_singleton] at h1
          right
          rw [h1]
          exact List.mem_cons_self _ _
    · right
      exact List.mem_cons_of_mem _ hh

lemma mem_dedupByKey {ms : List Metric} {x : Metric} (h : x ∈ dedupByKey ms) : x ∈ ms := by
  rw [dedupByKey] at h
  rcases mem_foldl_upsertM ms [] x h with hh | hh
  · simp at hh
  · exact hh

lemma dedupByKey_pairwise (ms : List Metric) :
    (dedupByKey ms).Pairwise fun a b => keyOf a ≠ keyOf b := by
  obtain ⟨h1, h2⟩ := foldl_upsertM_invariant ms (⟨List.nodup_nil, by simp⟩ : accInvariant [])
  rw [dedupByKey]
  rw [List.pairwise_map]
  have h1p : ((ms.foldl upsertM []).map Prod.fst).Pairwise Ne := h1
  have hp : (ms.foldl upsertM []).Pairwise fun a b => a.1 ≠ b.1 := List.pairwise_map.mp h1p
  apply List.Pairwise.imp_of_mem ?_ hp
  intro a b ha hb hab
  rw [← h2 a ha, ← h2 b hb]
  exact hab

/-! ### Structure of the weak-metrics loop -/

/-- The natural key the synthetic entry of baseline `b` carries. -/
def wkeyOf (b : BenchRow) : MKey :=
  ("weak", b.version, b.n_bats, b.iters, b.procs, b.threads)

lemma keyOf_mkWeakMetric (b r : BenchRow) :
    keyOf (mkWeakMetric b r) = ("weak", r.version, r.n_bats, r.iters, r.procs, r.threads) := rfl

lemma keyOf_syntheticOf (b : BenchRow) : keyOf (syntheticOf b) = wkeyOf b := rfl

lemma weak_baseline_cases {rows : List BenchRow} {it : ℕ} {v : String} {b : BenchRow}
    (h : _weak_baseline rows it v = some b) :
    pyMinByNbats (weakSeqCands rows it) = some b ∨
      (pyMinByNbats (weakSeqCands rows it) = none ∧
        pyMinByNbats (weakSameCands rows it v) = some b) := by
  rw [_weak_baseline] at h
  cases hseq : pyMinByNbats (weakSeqCands rows it) with
  | some x =>
    rw [hseq] at h
    simp only [Option.some.injEq] at h
    left
    rw [h]
  | none =>
    rw [hseq] at h
    exact Or.inr ⟨rfl, h⟩

lemma weak_baseline_inv {rows : List BenchRow} {it : ℕ} {v : String} {b : BenchRow}
    (h : _weak_baseline rows it v = some b) :
    b ∈ rows ∧ b.iters = it ∧ b.p = 1 ∧ (b.version = "sequential" ∨ b.version = v) := by
  rcases weak_baseline_cases h with hh | ⟨_, hh⟩
  · have hmem := mem_weakSeqCands.mp (pyMinByNbats_mem hh)
    exact ⟨hmem.1, hmem.2.1, hmem.2.2.2, Or.inl hmem.2.2.1⟩
  · have hmem := mem_weakSameCands.mp (pyMinByNbats_mem hh)
    exact ⟨hmem.1, hmem.2.1, hmem.2.2.2, Or.inr hmem.2.2.1⟩

lemma weakPairBlock_eq_of_baseline {rows : List BenchRow} {it : ℕ} {v : String} {b : BenchRow}
    (hv : v ≠ "sequential") (hb : _weak_baseline rows it v = some b) :
    weakPairBlock rows it v =
      ((rows.filter fun r => decide (r.iters = it) && decide (r.version = v)).map
        (mkWeakMetric b)) ++ [syntheticOf b] := by
  rw [weakPairBlock, if_neg hv, hb]

lemma mem_weakPairBlock {rows : List BenchRow} {it : ℕ} {v : String} {m : Metric}
    (h : m ∈ weakPairBlock rows it v) :
    v ≠ "sequential" ∧ ∃ b, _weak_baseline rows it v = some b ∧
      ((∃ r ∈ rows, r.iters = it ∧ r.version = v ∧ m = mkWeakMetric b r) ∨
        m = syntheticOf b) := by
  rw [weakPairBlock] at h
  by_cases hv : v = "sequential"
  · rw [if_pos hv] at h
    exact absurd h (List.not_mem_nil _)
  · rw [if_neg hv] at h
    refine ⟨hv, ?_⟩
    cases hb : _weak_baseline rows it v with
    | none =>
      rw [hb] at h
      exact absurd h (List.not_mem_nil _)
    | some b =>
      rw [hb] at h
      refine ⟨b, rfl, ?_⟩
      rcases List.mem_append.mp h with hh | hh
      · obtain ⟨r, hr, hrm⟩ := List.mem_map.mp hh
        obtain ⟨hrmem, hrp⟩ := List.mem_filter.mp hr
        simp only [Bool.and_eq_true, decide_eq_true_eq] at hrp
        exact Or.inl ⟨r, hrmem, hrp.1, hrp.2, hrm.symm⟩
      · simp only [List.mem_singleton] at hh
        exact Or.inr hh

lemma weakPairBlock_iters {rows : List BenchRow} {it : ℕ} {v : String} {m : Metric}
    (h : m ∈ weakPairBlock rows it v) : m.iters = it := by
  obtain ⟨_, b, hb, hm⟩ := mem_weakPairBlock h
  rcases hm with ⟨r, _, hri, _, hmr⟩ | hms
  · rw [hmr]
    exact hri
  · rw [hms]
    exact (weak_baseline_inv hb).2.1

lemma mem_itersSorted {rows : List BenchRow} {r : BenchRow} (h : r ∈ rows) :
    r.iters ∈ itersSorted rows := by
  rw [itersSorted, mem_pySortedSet]
  exact List.mem_map.mpr ⟨r, h, rfl⟩

lemma mem_versionsSorted {rows : List BenchRow} {r : BenchRow} (h : r ∈ rows) :
    r.version ∈ versionsSorted rows := by
  rw [versionsSorted, mem_pySortedSet]
  exact List.mem_map.mpr ⟨r, h, rfl⟩

lemma mem_weakOut {rows : List BenchRow} {m : Metric} (h : m ∈ weakOut rows) :
    ∃ it v, it ∈ itersSorted rows ∧ v ∈ versionsSorted rows ∧
      m ∈ weakPairBlock rows it v := by
  rw [weakOut] at h
  obtain ⟨inner, hinner, hm⟩ := List.mem_flatten.mp h
  obtain ⟨it, hit, hitEq⟩ := List.mem_map.mp hinner
  rw [← hitEq] at hm
  obtain ⟨bl, hbl, hmbl⟩ := List.mem_flatten.mp hm
  obtain ⟨v, hv, hvEq⟩ := List.mem_map.mp hbl
  rw [← hvEq] at hmbl
  exact ⟨it, v, hit, hv, hmbl⟩

lemma mem_weak_metrics_inv {rows : List BenchRow} {m : Metric}
    (h : m ∈ _weak_metrics rows) :
    ∃ it v, v ≠ "sequential" ∧ ∃ b, _weak_baseline rows it v = some b ∧
      ((∃ r ∈ rows, r.iters = it ∧ r.version = v ∧ m = mkWeakMetric b r) ∨
        m = syntheticOf b) := by
  rw [_weak_metrics] at h
  obtain ⟨it, v, _, _, hbl⟩ := mem_weakOut (mem_dedupByKey h)
  obtain ⟨hv, b, hb, hm⟩ := mem_weakPairBlock hbl
  exact ⟨it, v, hv, b, hb, hm⟩

lemma keyFilter_flatten (K : MKey) (l : List (List Metric)) :
    keyFilter K l.flatten = (l.map (keyFilter K)).flatten := by
  induction l with
  | nil => rfl
  | cons a l ih =>
    rw [List.flatten_cons, keyFilter_append, ih, List.map_cons, List.flatten_cons]

lemma getLast?_flatten_of_blocks {s : α} :
    ∀ (l : List (List α)), (∀ bl ∈ l, bl = [] ∨ bl.getLast? = some s) →
      (∃ bl ∈ l, bl ≠ []) → l.flatten.getLast? = some s := by
  intro l
  induction l with
  | nil =>
    intro _ h2
    obtain ⟨bl, hbl, _⟩ := h2
    exact absurd hbl (List.not_mem_nil _)
  | cons a l ih =>
    intro h1 h2
    rw [List.flatten_cons]
    by_cases hl : l.flatten = []
    · have hlnil : ∀ bl ∈ l, bl = [] := List.flatten_eq_nil_iff.mp hl
      obtain ⟨bl, hbl, hblne⟩ := h2
      have ha : a ≠ [] := by
        rcases List.mem_cons.mp hbl with hh | hh
        · rw [← hh]
          exact hblne
        · exact absurd (hlnil bl hh) hblne
      rw [hl, List.append_nil]
      rcases h1 a (List.mem_cons_self _ _) with hh | hh
      · exact absurd hh ha
      · exact hh
    · rw [List.getLast?_append_of_ne_nil a hl]
      apply ih
      · intro bl hbl
        exact h1 bl (List.mem_cons_of_mem _ hbl)
      · by_contra hno
        push_neg at hno
        exact hl (List.flatten_eq_nil_iff.mpr hno)

lemma version_of_key_eq {t : MKey} {b : BenchRow} (h : t = wkeyOf b) : t.2.1 = b.version := by
  rw [h]
  rfl

lemma iters_of_key_eq {t : MKey} {b : BenchRow} (h : t = wkeyOf b) : t.2.2.2.1 = b.iters := by
  rw [h]
  rfl

lemma blockFilter_other_iters {rows : List BenchRow} {it' : ℕ} {v : String} {b : BenchRow}
    (hit : it' ≠ b.iters) :
    keyFilter (wkeyOf b) (weakPairBlock rows it' v) = [] := by
  apply keyFilter_nil_of_no_key
  intro m hm hK
  have hmit : m.iters = it' := weakPairBlock_iters hm
  have hmb : m.iters = b.iters := iters_of_key_eq hK
  exact hit (hmit ▸ hmb)

lemma blockFilter_caseA {rows : List BenchRow} {it0 : ℕ} {b : BenchRow} (v : String)
    (hseq : pyMinByNbats (weakSeqCands rows it0) = some b) :
    keyFilter (wkeyOf b) (weakPairBlock rows it0 v) =
      if v = "sequential" then [] else [syntheticOf b] := by
  have hbver : b.version = "sequential" :=
    (mem_weakSeqCands.mp (pyMinByNbats_mem hseq)).2.2.1
  by_cases hv : v = "sequential"
  · rw [if_pos hv, weakPairBlock, if_pos hv, keyFilter_nil]
  · rw [if_neg hv]
    have hb : _weak_baseline rows it0 v = some b := by
      rw [_weak_baseline, hseq]
    rw [weakPairBlock_eq_of_baseline hv hb, keyFilter_append]
    have h1 : keyFilter (wkeyOf b)
        (((rows.filter fun r => decide (r.iters = it0) && decide (r.version = v)).map
          (mkWeakMetric b))) = [] := by
      apply keyFilter_nil_of_no_key
      intro m hm hK
      obtain ⟨r, hr, hrm⟩ := List.mem_map.mp hm
      obtain ⟨-, hrp⟩ := List.mem_filter.mp hr
      simp only [Bool.and_eq_true, decide_eq_true_eq] at hrp
      rw [← hrm] at hK
      have hrv : r.version = b.version := version_of_key_eq hK
      exact hv (by rw [← hrp.2, hrv, hbver])
    rw [h1, keyFilter_cons, if_pos (keyOf_syntheticOf b), keyFilter_nil]
    rfl

lemma blockFilter_caseB_other {rows : List BenchRow} {it0 : ℕ} {v0 v : String} {b : BenchRow}
    (hseq : pyMinByNbats (weakSeqCands rows it0) = none)
    (hsame : pyMinByNbats (weakSameCands rows it0 v0) = some b)
    (hvv0 : v ≠ v0) :
    keyFilter (wkeyOf b) (weakPairBlock rows it0 v) = [] := by
  have hbver : b.version = v0 :=
    (mem_weakSameCands.mp (pyMinByNbats_mem hsame)).2.2.1
  by_cases hv : v = "sequential"
  · rw [weakPairBlock, if_pos hv, keyFilter_nil]
  · rw [weakPairBlock, if_neg hv, _weak_baseline, hseq]
    cases hb2 : pyMinByNbats (weakSameCands rows it0 v) with
    | none => rfl
    | some b2 =>
      have hb2ver : b2.version = v :=
        (mem_weakSameCands.mp (pyMinByNbats_mem hb2)).2.2.1
      rw [keyFilter_append]
      have h1 : keyFilter (wkeyOf b)
          (((rows.filter fun r => decide (r.iters = it0) && decide (r.version = v)).map
            (mkWeakMetric b2))) = [] := by
        apply keyFilter_nil_of_no_key
        intro m hm hK
        obtain ⟨r, hr, hrm⟩ := List.mem_map.mp hm
        obtain ⟨-, hrp⟩ := List.mem_filter.mp hr
        simp only [Bool.and_eq_true, decide_eq_true_eq] at hrp
        rw [← hrm] at hK
        have hrv : r.version = b.version := version_of_key_eq hK
        exact hvv0 (by rw [← hrp.2, hrv, hbver])
      have h2 : keyFilter (wkeyOf b) [syntheticOf b2] = [] := by
        apply keyFilter_nil_of_no_key
        intro m hm hK
        simp only [List.mem_singleton] at hm
        rw [hm, keyOf_syntheticOf] at hK
        have hrv : b2.version = b.version := version_of_key_eq hK
        exact hvv0 (by rw [← hb2ver, hrv, hbver])
      rw [h1, h2]
      rfl

lemma blockFilter_caseB_self {rows : List BenchRow} {it0 : ℕ} {v0 : String} {b : BenchRow}
    (hseq : pyMinByNbats (weakSeqCands rows it0) = none)
    (hsame : pyMinByNbats (weakSameCands rows it0 v0) = some b)
    (hv0 : v0 ≠ "sequential") :
    (keyFilter (wkeyOf b) (weakPairBlock rows it0 v0)).getLast? = some (syntheticOf b) := by
  have hb : _weak_baseline rows it0 v0 = some b := by
    rw [_weak_baseline, hseq]
    exact hsame
  rw [weakPairBlock_eq_of_baseline hv0 hb, keyFilter_append]
  rw [keyFilter_cons, if_pos (keyOf_syntheticOf b), keyFilter_nil]
  rw [List.getLast?_append_of_ne_nil _ (by simp)]
  rfl

lemma innerFilter_at_it0 {rows : List BenchRow} {it0 : ℕ} {v0 : String} {b : BenchRow}
    (hv0 : v0 ≠ "sequential") (hv0mem : v0 ∈ versionsSorted rows)
    (hb : _weak_baseline rows it0 v0 = some b) :
    (keyFilter (wkeyOf b)
      (((versionsSorted rows).map fun v => weakPairBlock rows it0 v).flatten)).getLast? =
      some (syntheticOf b) := by
  rw [keyFilter_flatten, List.map_map]
  apply getLast?_flatten_of_blocks
  · intro bl hbl
    obtain ⟨v, hv, hveq⟩ := List.mem_map.mp hbl
    rw [← hveq]
    simp only [Function.comp_apply]
    rcases weak_baseline_cases hb with hA | ⟨hseq, hsame⟩
    · rw [blockFilter_caseA v hA]
      by_cases hv2 : v = "sequential"
      · left
        rw [if_pos hv2]
      · right
        rw [if_neg hv2]
        rfl
    · by_cases hvv0 : v = v0
      · right
        rw [hvv0]
        exact blockFilter_caseB_self hseq hsame hv0
      · left
        exact blockFilter_caseB_other hseq hsame hvv0
  · refine ⟨keyFilter (wkeyOf b) (weakPairBlock rows it0 v0),
      List.mem_map.mpr ⟨v0, hv0mem, rfl⟩, ?_⟩
    rcases weak_baseline_cases hb with hA | ⟨hseq, hsame⟩
    · rw [blockFilter_caseA v0 hA, if_neg hv0]
      simp
    · intro h0
      have hx := blockFilter_caseB_self hseq hsame hv0
      rw [h0] at hx
      exact Option.noConfusion hx

lemma innerFilter_other_iters {rows : List BenchRow} {it : ℕ} {b : BenchRow}
    (hit : it ≠ b.iters) :
    keyFilter (wkeyOf b)
      (((versionsSorted rows).map fun v => weakPairBlock rows it v).flatten) = [] := by
  rw [keyFilter_flatten, List.map_map]
  apply List.flatten_eq_nil_iff.mpr
  intro bl hbl
  obtain ⟨v, hv, hveq⟩ := List.mem_map.mp hbl
  rw [← hveq]
  simp only [Function.comp_apply]
  exact blockFilter_other_iters hit

lemma weakMetrics_keyFilter_synthetic {rows : List BenchRow} {it0 : ℕ} {v0 : String}
    {b : BenchRow} (hv0 : v0 ≠ "sequential") (hv0mem : v0 ∈ versionsSorted rows)
    (hb : _weak_baseline rows it0 v0 = some b) :
    keyFilter (wkeyOf b) (_weak_metrics rows) = [syntheticOf b] := by
  have hbit : b.iters = it0 := (weak_baseline_inv hb).2.1
  have hlast : (keyFilter (wkeyOf b) (weakOut rows)).getLast? = some (syntheticOf b) := by
    rw [weakOut, keyFilter_flatten, List.map_map]
    apply getLast?_flatten_of_blocks
    · intro bl hbl
      obtain ⟨it, hit, hitEq⟩ := List.mem_map.mp hbl
      rw [← hitEq]
      simp only [Function.comp_apply]
      by_cases hito : it = it0
      · right
        rw [hito]
        exact innerFilter_at_it0 hv0 hv0mem hb
      · left
        apply innerFilter_other_iters
        rw [hbit]
        exact hito
    · refine ⟨keyFilter (wkeyOf b)
        (((versionsSorted rows).map fun v => weakPairBlock rows it0 v).flatten),
        List.mem_map.mpr ⟨it0, ?_, rfl⟩, ?_⟩
      · rw [← hbit]
        exact mem_itersSorted (weak_baseline_inv hb).1
      · intro h0
        have hx := innerFilter_at_it0 hv0 hv0mem hb
        rw [h0] at hx
        exact Option.noConfusion hx
  rw [_weak_metrics, dedupByKey_keyFilter, hlast]
  rfl

/-! ## Claims

The arithmetic operations on `Rat` are `@[irreducible]` by default, which
only affects definitional unfolding during proof checking; making them locally
lets `decide` evaluate the pipeline on the concrete inputs used by the
witnesses and counterexamples below. -/

section ClaimSection

attribute [local semireducible] Rat.mul Rat.inv Rat.add Rat.sub

/-- Input line whose `time_s` token `1..2` is matched by the character class
`[0-9.]+` of `BENCH_RE` but is not a valid float. -/
def c1CrashLine : List Char :=
  "BENCH version=mpi n_bats=1 iters=1 procs=1 threads=1 time_s=1..2".data

/-- Claim C1: the parser is claimed never to raise on any input line.  The
code violates this: on a line whose `time_s` token matches `[0-9.]+` but is
not a valid float (for example `1..2`), `BENCH_RE` accepts the line and
`float()` then raises `ValueError`, aborting the run instead of skipping
the line. -/
theorem c1_parse_crash_on_malformed_time :
    parse_lines [c1CrashLine] = .error () := rfl

/-- Claim C2, counterexample: two sequential repeats of the same
configuration with times 10 and 9 produce two strong metrics with the same
natural key, so the concatenated output of compute_metrics is not
key-unique (the strong table is never deduplicated). -/
theorem c2_counterexample_duplicate_keys :
    ¬ ((compute_metrics [⟨"sequential", 100, 10, 1, 1, 10⟩,
        ⟨"sequential", 100, 10, 1, 1, 9⟩]).Pairwise fun a b => keyOf a ≠ keyOf b) := by
  decide

/-- Claim C2 (amended): duplicate suppression by the natural key
(mode, variant, problemSize, iterationCount, processCount, threadCount) is
applied to the weak table only; there no two metrics share the key.  The
strong table is emitted without deduplication. -/
theorem c2_weak_table_keys_unique (rows : List BenchRow) :
    (_weak_metrics rows).Pairwise fun a b => keyOf a ≠ keyOf b := by
  rw [_weak_metrics]
  exact dedupByKey_pairwise _

/-- Claim C3, counterexample: a single parallel record with elapsed time 0
becomes its own weak baseline; the synthetic unit-speedup entry then
replaces the natural entry under deduplication, so the pipeline emits a
metric with elapsedSeconds = 0 and speedup = 1 (not 0). -/
theorem c3_counterexample_zero_time_synthetic :
    ¬ (∀ m ∈ compute_metrics [⟨"openmp", 1, 1, 1, 1, 0⟩],
        (m.time_s ≤ 0 → m.speedup = 0) ∧
        (0 < m.time_s → m.speedup = m.T_base_s / m.time_s)) := by
  decide

/-- Claim C3 (amended): every metric emitted by compute_metrics has
speedup = baselineSeconds / elapsedSeconds when elapsedSeconds > 0 and
speedup = 0 when elapsedSeconds ≤ 0, except the synthetic weak baseline
entry in the degenerate case of a non-positive baseline elapsed time,
which carries speedup = 1 with baselineSeconds = elapsedSeconds. -/
theorem c3_speedup_formula_amended (rows : List BenchRow) (m : Metric)
    (hm : m ∈ compute_metrics rows) :
    m.speedup = (if 0 < m.time_s then m.T_base_s / m.time_s else 0) ∨
      (m.time_s ≤ 0 ∧ m.T_base_s = m.time_s ∧ m.speedup = 1) := by
  rw [compute_metrics] at hm
  rcases List.mem_append.mp hm with h | h
  · obtain ⟨r, t1, _, _, hmr⟩ := mem_strong_inv h
    left
    rw [hmr]
    rfl
  · obtain ⟨it, v, hv, bb, hb, hcase⟩ := mem_weak_metrics_inv h
    rcases hcase with ⟨r, _, _, _, hmr⟩ | hms
    · left
      rw [hmr]
      rfl
    · rw [hms]
      by_cases ht : 0 < bb.time_s
      · left
        show (1 : ℚ) = if 0 < bb.time_s then bb.time_s / bb.time_s else 0
        rw [if_pos ht]
        exact (div_self (ne_of_gt ht)).symm
      · right
        exact ⟨le_of_not_lt ht, rfl, rfl⟩

/-- Input for the C3 witness. -/
def c3Rows : List BenchRow := [⟨"sequential", 1, 1, 1, 1, 2⟩]

/-- The single strong metric computed from `c3Rows`. -/
def c3M : Metric := ⟨"strong", "sequential", 1, 1, 1, 1, 1, 2, 1, 2, 1, 1⟩

theorem c3_speedup_formula_amended_witness :
    c3M.speedup = (if 0 < c3M.time_s then c3M.T_base_s / c3M.time_s else 0) ∨
      (c3M.time_s ≤ 0 ∧ c3M.T_base_s = c3M.time_s ∧ c3M.speedup = 1) :=
  c3_speedup_formula_amended c3Rows c3M (by decide)

/-- Claim C10: derived parallelism is threadCount for the shared-memory
variant (openmp), processCount for the distributed variant (mpi), and 1
in every other case, including sequential and unknown variant tokens. -/
theorem c10_parallelism_rule (r : BenchRow) :
    (r.version = "openmp" → r.p = r.threads) ∧
    (r.version = "mpi" → r.p = r.procs) ∧
    (r.version ≠ "openmp" → r.version ≠ "mpi" → r.p = 1) := by
  refine ⟨?_, ?_, ?_⟩
  · intro h
    rw [BenchRow.p, if_pos h]
  · intro h
    have hne : r.version ≠ "openmp" := by
      rw [h]
      decide
    rw [BenchRow.p, if_neg hne, if_pos h]
  · intro h1 h2
    rw [BenchRow.p, if_neg h1, if_neg h2]

theorem c10_parallelism_rule_witness :
    (BenchRow.mk "openmp" 1 1 3 5 2).p = 5 ∧ (BenchRow.mk "mpi" 1 1 3 5 2).p = 3 ∧
      (BenchRow.mk "sequential" 1 1 3 5 2).p = 1 ∧
      (BenchRow.mk "unknown" 1 1 3 5 2).p = 1 :=
  ⟨(c10_parallelism_rule _).1 rfl, (c10_parallelism_rule _).2.1 rfl,
   (c10_parallelism_rule _).2.2 (by decide) (by decide),
   (c10_parallelism_rule _).2.2 (by decide) (by decide)⟩

/-- Claim C4: every strong metric's baseline time is the minimum
elapsedSeconds among the sequential records sharing the metric's
(problemSize, iterationCount); in particular such a group is non-empty. -/
theorem c4_strong_baseline_is_min_seq (rows : List BenchRow) (m : Metric)
    (hm : m ∈ _strong_metrics rows) :
    seqCandsStrong rows m.n_bats m.iters ≠ [] ∧
      m.T_base_s ∈ (seqCandsStrong rows m.n_bats m.iters).map (·.time_s) ∧
      ∀ u ∈ (seqCandsStrong rows m.n_bats m.iters).map (·.time_s), m.T_base_s ≤ u := by
  obtain ⟨r, t1, hr, hl, hmr⟩ := mem_strong_inv hm
  have hmin := find_baseline_ok_min (strongLookup_some_fb hl)
  have h1 : m.n_bats = r.n_bats := by
    rw [hmr]
    rfl
  have h2 : m.iters = r.iters := by
    rw [hmr]
    rfl
  have h3 : m.T_base_s = t1 := by
    rw [hmr]
    rfl
  rw [h1, h2, h3]
  refine ⟨?_, hmin.1, hmin.2⟩
  intro h0
  rw [h0] at hmin
  exact List.not_mem_nil _ hmin.1

/-- Input for the C4 witness: two sequential repeats with times 10 and 9. -/
def c4Rows : List BenchRow :=
  [⟨"sequential", 100, 10, 1, 1, 10⟩, ⟨"sequential", 100, 10, 1, 1, 9⟩]

/-- The strong metric produced for the slower repeat: its baseline is 9. -/
def c4M : Metric := ⟨"strong", "sequential", 100, 10, 1, 1, 1, 10, 100, 9, 9/10, 9/10⟩

theorem c4_strong_baseline_is_min_seq_witness :
    seqCandsStrong c4Rows c4M.n_bats c4M.iters ≠ [] ∧
      c4M.T_base_s ∈ (seqCandsStrong c4Rows c4M.n_bats c4M.iters).map (·.time_s) ∧
      ∀ u ∈ (seqCandsStrong c4Rows c4M.n_bats c4M.iters).map (·.time_s), c4M.T_base_s ≤ u :=
  c4_strong_baseline_is_min_seq c4Rows c4M (by decide)

/-- Claim C5: the weak baseline for an (iterationCount, non-sequential
variant) pair follows the two-tier rule: the minimum-problemSize sequential
parallelism-1 record for that iterationCount if one exists, else the
minimum-problemSize same-variant parallelism-1 record, else no baseline
resolves and no weak metric is emitted for that pair. -/
theorem c5_weak_baseline_two_tier (rows : List BenchRow) (it : ℕ) (v : String)
    (hv : v ≠ "sequential") :
    (weakSeqCands rows it ≠ [] →
      ∃ b, _weak_baseline rows it v = some b ∧ b ∈ weakSeqCands rows it ∧
        ∀ x ∈ weakSeqCands rows it, b.n_bats ≤ x.n_bats) ∧
    (weakSeqCands rows it = [] → weakSameCands rows it v ≠ [] →
      ∃ b, _weak_baseline rows it v = some b ∧ b ∈ weakSameCands rows it v ∧
        ∀ x ∈ weakSameCands rows it v, b.n_bats ≤ x.n_bats) ∧
    (weakSeqCands rows it = [] → weakSameCands rows it v = [] →
      _weak_baseline rows it v = none ∧
        ∀ m ∈ _weak_metrics rows, ¬(m.iters = it ∧ m.version = v)) := by
  refine ⟨?_, ?_, ?_⟩
  · intro hne
    cases hmin : pyMinByNbats (weakSeqCands rows it) with
    | none => exact absurd (pyMinByNbats_eq_none.mp hmin) hne
    | some b =>
      refine ⟨b, ?_, pyMinByNbats_mem hmin, pyMinByNbats_le hmin⟩
      rw [_weak_baseline, hmin]
  · intro hnil hne
    have hseq : pyMinByNbats (weakSeqCands rows it) = none := pyMinByNbats_eq_none.mpr hnil
    cases hmin : pyMinByNbats (weakSameCands rows it v) with
    | none => exact absurd (pyMinByNbats_eq_none.mp hmin) hne
    | some b =>
      refine ⟨b, ?_, pyMinByNbats_mem hmin, pyMinByNbats_le hmin⟩
      rw [_weak_baseline, hseq, hmin]
  · intro hnil hnil2
    have hnone : _weak_baseline rows it v = none := by
      rw [_weak_baseline, pyMinByNbats_eq_none.mpr hnil, pyMinByNbats_eq_none.mpr hnil2]
    refine ⟨hnone, ?_⟩
    intro m hm hmiv
    obtain ⟨hmi, hmv⟩ := hmiv
    obtain ⟨it', v', hv', bb, hb, hcase⟩ := mem_weak_metrics_inv hm
    rcases hcase with ⟨r, hrmem, hri, hrv, hmr⟩ | hms
    · have h1 : m.iters = it' := by
        rw [hmr]
        exact hri
      have h2 : m.version = v' := by
        rw [hmr]
        exact hrv
      have hit : it' = it := by rw [← h1, hmi]
      have hvv : v' = v := by rw [← h2, hmv]
      rw [hit, hvv, hnone] at hb
      exact Option.noConfusion hb
    · obtain ⟨hbmem, hbit, hbp, hbver⟩ := weak_baseline_inv hb
      have h1 : m.iters = bb.iters := by
        rw [hms]
        rfl
      have h2 : m.version = bb.version := by
        rw [hms]
        rfl
      rcases hbver with hseqv | hsamev
      · exact hv (by rw [← hmv, h2, hseqv])
      · have hvv : v' = v := by rw [← hsamev, ← h2, hmv]
        have hit : it' = it := by rw [← hbit, ← h1, hmi]
        rw [hit, hvv, hnone] at hb
        exact Option.noConfusion hb

/-- Input for the C5 witness: a sequential p=1 record resolves tier 1. -/
def c5Rows : List BenchRow :=
  [⟨"sequential", 100, 10, 1, 1, 5⟩, ⟨"openmp", 200, 10, 1, 2, 5⟩]

theorem c5_weak_baseline_two_tier_witness :
    ∃ b, _weak_baseline c5Rows 10 "openmp" = some b ∧ b ∈ weakSeqCands c5Rows 10 ∧
      ∀ x ∈ weakSeqCands c5Rows 10, b.n_bats ≤ x.n_bats :=
  (c5_weak_baseline_two_tier c5Rows 10 "openmp" (by decide)).1 (by decide)

/-- Claim C6: strong-mode efficiency is speedup divided by parallelism when
parallelism > 0 and 0 otherwise; weak-mode efficiency equals speedup with
no division by parallelism. -/
theorem c6_efficiency_rule (rows : List BenchRow) :
    (∀ m ∈ _strong_metrics rows,
      m.efficiency = if 0 < m.p then m.speedup / (m.p : ℚ) else 0) ∧
    (∀ m ∈ _weak_metrics rows, m.efficiency = m.speedup) := by
  constructor
  · intro m hm
    obtain ⟨r, t1, _, _, hmr⟩ := mem_strong_inv hm
    rw [hmr]
    rfl
  · intro m hm
    obtain ⟨it, v, hv, bb, hb, hcase⟩ := mem_weak_metrics_inv hm
    rcases hcase with ⟨r, _, _, _, hmr⟩ | hms
    · rw [hmr]
      rfl
    · rw [hms]
      rfl

/-- Input for the C6 witness. -/
def c6Rows : List BenchRow :=
  [⟨"sequential", 1, 1, 1, 1, 2⟩, ⟨"openmp", 1, 1, 1, 4, 1⟩]

/-- The strong metric for the openmp row of `c6Rows`. -/
def c6StrongM : Metric := ⟨"strong", "openmp", 1, 1, 1, 4, 4, 1, 1, 2, 2, 1/2⟩

/-- The weak metric for the openmp row of `c6Rows`. -/
def c6WeakM : Metric := ⟨"weak", "openmp", 1, 1, 1, 4, 4, 1, 1, 2, 2, 2⟩

theorem c6_efficiency_rule_witness :
    c6StrongM.efficiency = (if 0 < c6StrongM.p then c6StrongM.speedup / (c6StrongM.p : ℚ) else 0) ∧
      c6WeakM.efficiency = c6WeakM.speedup :=
  ⟨(c6_efficiency_rule c6Rows).1 c6StrongM (by decide),
   (c6_efficiency_rule c6Rows).2 c6WeakM (by decide)⟩

/-- Claim C7: whenever the weak baseline of an iterated (iterationCount,
variant) pair resolves to record b, exactly one metric in the weak table
carries b's natural key, and it is the synthetic entry with speedup = 1,
efficiency = 1, parallelism = 1 anchored at b's elapsed time — even when an
identical entry arises naturally from the candidate records. -/
theorem c7_synthetic_baseline_once (rows : List BenchRow) (it : ℕ) (v : String)
    (b : BenchRow) (hv : v ≠ "sequential") (hvmem : v ∈ versionsSorted rows)
    (hb : _weak_baseline rows it v = some b) :
    ∃ m, keyFilter (wkeyOf b) (_weak_metrics rows) = [m] ∧
      m.speedup = 1 ∧ m.efficiency = 1 ∧ m.p = 1 ∧
      m.version = b.version ∧ m.time_s = b.time_s ∧ m.T_base_s = b.time_s :=
  ⟨syntheticOf b, weakMetrics_keyFilter_synthetic hv hvmem hb, rfl, rfl, rfl, rfl, rfl, rfl⟩

/-- Input for the C7 witness. -/
def c7Rows : List BenchRow :=
  [⟨"sequential", 100, 10, 1, 1, 5⟩, ⟨"openmp", 200, 10, 1, 2, 4⟩]

/-- The weak baseline record resolved for (iters 10, openmp) in `c7Rows`. -/
def c7B : BenchRow := ⟨"sequential", 100, 10, 1, 1, 5⟩

theorem c7_synthetic_baseline_once_witness :
    ∃ m, keyFilter (wkeyOf c7B) (_weak_metrics c7Rows) = [m] ∧
      m.speedup = 1 ∧ m.efficiency = 1 ∧ m.p = 1 ∧
      m.version = c7B.version ∧ m.time_s = c7B.time_s ∧ m.T_base_s = c7B.time_s :=
  c7_synthetic_baseline_once c7Rows 10 "openmp" c7B (by decide) (by decide) (by decide)

/-- Claim C8: a (problemSize, iterationCount) group without any sequential
record contributes no strong metric, while every row whose group does have
a sequential record still receives one; the missing baseline never aborts
the strong pass (it is total by construction). -/
theorem c8_missing_strong_baseline_skipped (rows : List BenchRow) (n it : ℕ)
    (hnoseq : ∀ s ∈ rows, ¬(s.version = "sequential" ∧ s.n_bats = n ∧ s.iters = it)) :
    (∀ m ∈ _strong_metrics rows, ¬(m.n_bats = n ∧ m.iters = it)) ∧
      (∀ r ∈ rows,
        (∃ s ∈ rows, s.version = "sequential" ∧ s.n_bats = r.n_bats ∧ s.iters = r.iters) →
        ∃ m ∈ _strong_metrics rows,
          m.version = r.version ∧ m.n_bats = r.n_bats ∧ m.iters = r.iters ∧
          m.procs = r.procs ∧ m.threads = r.threads ∧ m.time_s = r.time_s) := by
  have hseqnil : seqCandsStrong rows n it = [] := by
    rw [seqCandsStrong, List.filter_eq_nil_iff]
    intro r hr hcond
    simp only [Bool.and_eq_true, decide_eq_true_eq] at hcond
    exact hnoseq r hr ⟨hcond.1.1, hcond.1.2, hcond.2⟩
  constructor
  · intro m hm hmn
    obtain ⟨r, t1, hr, hl, hmr⟩ := mem_strong_inv hm
    have hfb := strongLookup_some_fb hl
    have h1 : r.n_bats = n := by
      rw [← hmn.1, hmr]
      rfl
    have h2 : r.iters = it := by
      rw [← hmn.2, hmr]
      rfl
    rw [h1, h2, find_baseline_error_of_nil hseqnil] at hfb
    exact Except.noConfusion hfb
  · intro r hr hex
    obtain ⟨s, hs, hsv, hsn, hsi⟩ := hex
    have hne : seqCandsStrong rows r.n_bats r.iters ≠ [] := by
      intro h0
      have hmem : s ∈ seqCandsStrong rows r.n_bats r.iters :=
        mem_seqCandsStrong.mpr ⟨hs, hsv, hsn, hsi⟩
      rw [h0] at hmem
      exact List.not_mem_nil _ hmem
    obtain ⟨t, hfb⟩ := find_baseline_ok_of_ne_nil hne
    have hl := strongLookup_of_fb (mem_strongSizes hr) hfb
    exact ⟨mkStrongMetric r t, mem_strong_intro hr hl, rfl, rfl, rfl, rfl, rfl, rfl⟩

/-- Input for the C8 witness: the (1, 1) group has no sequential record,
the (2, 1) group does. -/
def c8Rows : List BenchRow :=
  [⟨"openmp", 1, 1, 1, 2, 3⟩, ⟨"sequential", 2, 1, 1, 1, 4⟩, ⟨"openmp", 2, 1, 1, 2, 2⟩]

theorem c8_missing_strong_baseline_skipped_witness :
    (∀ m ∈ _strong_metrics c8Rows, ¬(m.n_bats = 1 ∧ m.iters = 1)) ∧
      (∀ r ∈ c8Rows,
        (∃ s ∈ c8Rows, s.version = "sequential" ∧ s.n_bats = r.n_bats ∧ s.iters = r.iters) →
        ∃ m ∈ _strong_metrics c8Rows,
          m.version = r.version ∧ m.n_bats = r.n_bats ∧ m.iters = r.iters ∧
          m.procs = r.procs ∧ m.threads = r.threads ∧ m.time_s = r.time_s) :=
  c8_missing_strong_baseline_skipped c8Rows 1 1 (by decide)

/-- Claim C9: when parsing a non-empty input yields zero records, main
aborts with the message "No BENCH lines found in input." right after
creating the output directory: neither the CSV nor any chart file is
written, whether or not plotting is available. -/
theorem c9_zero_records_fatal_abort (lines : List (List Char)) (plotAvailable : Bool)
    (_hne : lines ≠ []) (hparse : parse_lines lines = .ok []) :
    mainRun plotAvailable lines =
      ([OutEvent.mkdirOut], .error "No BENCH lines found in input.") := by
  rw [mainRun, hparse]
  rfl

theorem c9_zero_records_fatal_abort_witness :
    mainRun true ["only noise here".data] =
      ([OutEvent.mkdirOut], .error "No BENCH lines found in input.") :=
  c9_zero_records_fatal_abort ["only noise here".data] true
    (List.cons_ne_nil _ _) rfl

end ClaimSection
